import Mathlib

/-!
Verification model of the tic-tac-toe engine in `tictactoe/game/strategy.py`.

The pure model below translates the `Square` and `Board` classes statement by
statement.  A CPython-2 dict whose keys are the small non-negative integers
`0..8` (plus, at worst, a handful of further keys below 32, all inserted and
never deleted) iterates its items in ascending key order: `hash(i) = i` and the
hash table has 32 slots once it holds the nine squares, so slot order is key
order.  The dict is therefore modelled as a partial map `Nat → Option Square`
whose iteration (`iteritems`) enumerates the keys `0..31` in ascending order;
`none` models an absent key.

Python floats `-1e10000` / `1e10000` overflow to `-inf` / `+inf`; they are only
ever compared (via `max`, `min`, `<`, `<=`) against heuristic scores, whose
magnitude is at most 33, so the integers `-(10^9)` / `10^9` are
order-equivalent stand-ins.

The recursion of `negamax` terminates because every recursive call plays a move
on an empty square, strictly decreasing the number of available moves.  The
model makes this explicit with a fuel parameter: the entry point supplies
`available_moves.length + 1` units of fuel, each ply consumes one, and each ply
removes one available move, so the zero-fuel branch is unreachable from the
entry point (`negamaxF_fuel_stable` below makes the fuel-independence precise).
-/

inductive Player
  | X
  | O
deriving DecidableEq

/-- The `Square` class: a cell holding an optional player. -/
structure Square where
  player : Option Player
deriving DecidableEq

/-- `Square.empty`: `self.player is None`. -/
def Square.empty (s : Square) : Bool := s.player.isNone

/-- The `Board` class: its `squares` dict, mapping integer keys to `Square`
objects; `none` models an absent key. -/
structure Board where
  squares : Nat → Option Square

/-- `Board.winning_combos`. -/
def winning_combos : List (List Nat) :=
  [[0, 1, 2], [3, 4, 5], [6, 7, 8], [0, 3, 6], [1, 4, 7], [2, 5, 8],
   [0, 4, 8], [2, 4, 6]]

/-- `Board.available_moves`: `[k for k, v in self.squares.iteritems() if v.empty]`.
Iteration over the dict enumerates keys `0..31` in ascending order (see the
module comment). -/
def Board.available_moves (b : Board) : List Nat :=
  (List.range 32).filter fun k =>
    match b.squares k with
    | some s => s.empty
    | none => false

/-- `Board.get_squares`: `[k for k, v in self.squares.iteritems() if v.player == player]`. -/
def Board.get_squares (b : Board) (p : Player) : List Nat :=
  (List.range 32).filter fun k =>
    match b.squares k with
    | some s => decide (s.player = some p)
    | none => false

/-- `Board.owned_or_vacant`: `self.available_moves + self.get_squares(player)`. -/
def Board.owned_or_vacant (b : Board) (p : Player) : List Nat :=
  b.available_moves ++ b.get_squares p

/-- `Board.winner`: for each player in the order `('X', 'O')`, return that
player as soon as some winning combo is entirely among their squares. -/
def Board.winner (b : Board) : Option Player :=
  [Player.X, Player.O].find? fun p =>
    winning_combos.any fun combo =>
      combo.all fun pos => (b.get_squares p).contains pos

/-- `Board.complete`, translated with its actual control flow: the
`return True` at the end of the first iteration of the outer loop means only
player `'X'` is ever examined.  If some winning combo lies entirely inside
`owned_or_vacant('X')` the function returns `self.winner is not None` at the
first such combo (the value does not depend on which combo fires); otherwise
it returns `True`. -/
def Board.complete (b : Board) : Bool :=
  if winning_combos.any (fun combo =>
      combo.all fun pos => (b.owned_or_vacant Player.X).contains pos)
  then b.winner.isSome
  else true

/-- `Board.tied`: `self.complete == True and self.winner is None`. -/
def Board.tied (b : Board) : Bool := b.complete && b.winner.isNone

/-- `Board.make_move`: `self.squares[position] = Square(player)` — an
unconditional dict item assignment (no validation in the source). -/
def Board.make_move (b : Board) (position : Nat) (p : Player) : Board :=
  ⟨fun k => if k = position then some ⟨some p⟩ else b.squares k⟩

/-- `Board.get_enemy`. -/
def get_enemy (p : Player) : Player :=
  match p with
  | Player.X => Player.O
  | Player.O => Player.X

/-- The local variable `value` of `Board.heuristic`: `none` models the case in
which no branch assigns it (the source then raises `UnboundLocalError` at
`value * multiplier`; the docstring notes an exception occurs when the board
is not complete). -/
def Board.heuristic_value (b : Board) (player : Player) : Option Int :=
  if b.winner = some player then some 1
  else if b.tied = true then some 0
  else if b.winner = some (get_enemy player) then some (-1)
  else none

/-- `Board.heuristic`: `value * multiplier` with
`multiplier = len(self.available_moves) + 1`. -/
def Board.heuristic (b : Board) (player : Player) : Option Int :=
  (b.heuristic_value player).map fun value =>
    value * ((b.available_moves).length + 1 : Int)

/-- Module constant `MIN = -1`. -/
def MIN : Int := -1

/-- Module constant `MAX = 1`. -/
def MAX : Int := 1

/-- Stand-in for the float `-1e10000 = -inf` (see the module comment). -/
def NEG_INF : Int := -(10 ^ 9)

/-- Stand-in for the float `1e10000 = inf`. -/
def POS_INF : Int := 10 ^ 9

/-- `copy.deepcopy` on a `Board`: in this value-level model a copy is the value
itself; the heap model below accounts for the allocation it performs. -/
def deepcopy (b : Board) : Board := b

/-- The `mm == MAX` loop body of `Board.negamax`: iterate the moves, deep-copy
the board, play the move, raise `alpha`, and prune (`return beta`) once
`alpha >= beta`.  `rec` is the recursive call at one ply deeper (with `-mm`,
i.e. `MIN`). -/
def maxLoop (rec : Board → Int → Int → Int) (b : Board) (p : Player) :
    List Nat → Int → Int → Int
  | [], alpha, _ => alpha
  | move :: rest, alpha, beta =>
    let copy := (deepcopy b).make_move move p
    let alpha' := max alpha (rec copy alpha beta)
    if beta ≤ alpha' then beta
    else maxLoop rec b p rest alpha' beta

/-- The `mm == MIN` loop body of `Board.negamax`: lower `beta`, and prune
(`return alpha`) once `beta <= alpha`. -/
def minLoop (rec : Board → Int → Int → Int) (b : Board) (p : Player) :
    List Nat → Int → Int → Int
  | [], _, beta => beta
  | move :: rest, alpha, beta =>
    let copy := (deepcopy b).make_move move p
    let beta' := min beta (rec copy alpha beta)
    if beta' ≤ alpha then alpha
    else minLoop rec b p rest alpha beta'

/-- `Board.negamax` with explicit fuel (see the module comment; the entry point
`negamax` supplies enough fuel for the zero-fuel branch to be unreachable).
The final `else 0` models the source falling off the end when `mm` is neither
`MAX` nor `MIN`, which never happens on any call the source makes. -/
def negamaxF : Nat → Board → Player → Player → Int → Int → Int → Int
  | 0, _, _, _, _, _, _ => 0
  | fuel + 1, board, o_player, player, mm, alpha, beta =>
    if board.complete then (board.heuristic o_player).getD 0
    else if mm = MAX then
      maxLoop (fun c a bt => negamaxF fuel c o_player (get_enemy player) MIN a bt)
        board player board.available_moves alpha beta
    else if mm = MIN then
      minLoop (fun c a bt => negamaxF fuel c o_player (get_enemy player) MAX a bt)
        board player board.available_moves alpha beta
    else 0

/-- `Board.negamax` (the `self` receiver is unused by the source method). -/
def negamax (board : Board) (o_player player : Player) (mm alpha beta : Int) : Int :=
  negamaxF ((board.available_moves).length + 1) board o_player player mm alpha beta

/-- The score `best_move` computes for one candidate move:
`self.negamax(deepcopy(self) after the move, player, enemy, MIN, -inf, inf)`. -/
def topScore (b : Board) (player : Player) (move : Nat) : Int :=
  negamax ((deepcopy b).make_move move player) player (get_enemy player) MIN NEG_INF POS_INF

/-- The selection loop of `Board.best_move`: keep the first move whose score
strictly exceeds the running `highest`.  The accumulator `best` is `none`
while the local variable `best_move` is still unassigned; returning `none`
models the `UnboundLocalError` the source raises at `return best_move` when
the loop never assigns it. -/
def bestMoveLoop (self : Board) (player : Player) :
    List Nat → Int → Option Nat → Option Nat
  | [], _, best => best
  | move :: rest, highest, best =>
    let score := topScore self player move
    if highest < score then bestMoveLoop self player rest score (some move)
    else bestMoveLoop self player rest highest best

/-- `Board.best_move`: the opening shortcut when more than 7 squares are
available, otherwise the negamax selection loop. -/
def Board.best_move (self : Board) (player : Player) : Option Nat :=
  if 7 < (self.available_moves).length then
    if (self.available_moves).contains 4 then some 4 else some 0
  else bestMoveLoop self player self.available_moves NEG_INF none

/-- The doc-test board of the module docstring:
`{0: 'X', 1: 'O', 2: 'X', 4: 'O', 6: 'O', 7: 'X', 8: 'X'}`, keys `3` and `5`
filled with empty squares by the constructor. -/
def doctestBoard : Board :=
  ⟨fun k =>
    if k = 0 ∨ k = 2 ∨ k = 7 ∨ k = 8 then some ⟨some Player.X⟩
    else if k = 1 ∨ k = 4 ∨ k = 6 then some ⟨some Player.O⟩
    else if k < 9 then some ⟨none⟩ else none⟩

/-- The board that refutes the line-feasibility version of `complete`:
`'O'` on squares 1, 4, 6 and 8, everything else empty.  No winning combo is
available to `'X'`, so the source returns `True` although nobody has won and
five squares are still empty. -/
def blockedBoard : Board :=
  ⟨fun k =>
    if k = 1 ∨ k = 4 ∨ k = 6 ∨ k = 8 then some ⟨some Player.O⟩
    else if k < 9 then some ⟨none⟩ else none⟩

/-- A board whose square 0 is already occupied by `'X'` (all others empty). -/
def occupiedBoard : Board :=
  ⟨fun k =>
    if k = 0 then some ⟨some Player.X⟩
    else if k < 9 then some ⟨none⟩ else none⟩

/-- A finished board: `'X'` has won on `{0,1,2}`, `'O'` sits on 4 and 8, and
squares 3, 5, 6, 7 are still empty. -/
def wonWithMovesBoard : Board :=
  ⟨fun k =>
    if k = 0 ∨ k = 1 ∨ k = 2 then some ⟨some Player.X⟩
    else if k = 4 ∨ k = 8 then some ⟨some Player.O⟩
    else if k < 9 then some ⟨none⟩ else none⟩

/-- The empty board produced by `Board()` on a fresh dict: nine empty squares. -/
def emptyBoard : Board :=
  ⟨fun k => if k < 9 then some ⟨none⟩ else none⟩

/-- The board after a single `'O'` move in the centre of an empty board. -/
def centerOBoard : Board :=
  ⟨fun k =>
    if k = 4 then some ⟨some Player.O⟩
    else if k < 9 then some ⟨none⟩ else none⟩

/-- A fully occupied board (a drawn position):
`X O X / X O O / O X X`. -/
def fullBoard : Board :=
  ⟨fun k =>
    if k = 0 ∨ k = 2 ∨ k = 3 ∨ k = 7 ∨ k = 8 then some ⟨some Player.X⟩
    else if k = 1 ∨ k = 4 ∨ k = 5 ∨ k = 6 then some ⟨some Player.O⟩
    else none⟩

/-- Terminal fixture: `'X'` has won on `{0,1,2}` with six squares empty. -/
def earlyWinBoard : Board :=
  ⟨fun k =>
    if k = 0 ∨ k = 1 ∨ k = 2 then some ⟨some Player.X⟩
    else if k < 9 then some ⟨none⟩ else none⟩

/-- Terminal fixture: `'X'` has won on `{0,1,2}` with only three squares empty. -/
def lateWinBoard : Board :=
  ⟨fun k =>
    if k = 0 ∨ k = 1 ∨ k = 2 then some ⟨some Player.X⟩
    else if k = 3 ∨ k = 4 ∨ k = 5 then some ⟨some Player.O⟩
    else if k < 9 then some ⟨none⟩ else none⟩

/-- Terminal fixture: `'O'` has won on `{0,1,2}` with six squares empty. -/
def earlyLossBoard : Board :=
  ⟨fun k =>
    if k = 0 ∨ k = 1 ∨ k = 2 then some ⟨some Player.O⟩
    else if k < 9 then some ⟨none⟩ else none⟩

/-- Terminal fixture: `'O'` has won on `{0,1,2}` with four squares empty. -/
def lateLossBoard : Board :=
  ⟨fun k =>
    if k = 0 ∨ k = 1 ∨ k = 2 then some ⟨some Player.O⟩
    else if k = 3 ∨ k = 4 then some ⟨some Player.X⟩
    else if k < 9 then some ⟨none⟩ else none⟩

/-!  ### Object/heap model

The claims about aliasing and in-place mutation are about Python's object
semantics: `self.squares = squares` binds a reference to the caller's dict,
the default argument `squares={}` is a single dict object created when the
function is defined, and `copy.deepcopy` allocates a fresh dict.  The model
below makes the heap of dict objects explicit: a dict object is an identifier
into the heap, `heapAlloc` allocates a fresh identifier, and a `Board` object
holds the identifier of its `squares` dict. -/

/-- The contents of one Python dict object. -/
abbrev Dict := Nat → Option Square

/-- `d[key] = s`. -/
def dictUpdate (d : Dict) (key : Nat) (s : Square) : Dict :=
  fun i => if i = key then some s else d i

/-- The heap of dict objects: contents per identifier, plus the next fresh
identifier. -/
structure ObjHeap where
  dicts : Nat → Dict
  next : Nat

/-- A `Board` object: it holds a reference to (the identifier of) its
`squares` dict. -/
structure BoardObj where
  squaresId : Nat

/-- Overwrite the contents of an existing dict object. -/
def heapWrite (h : ObjHeap) (id : Nat) (d : Dict) : ObjHeap :=
  ⟨fun i => if i = id then d else h.dicts i, h.next⟩

/-- Allocate a fresh dict object with the given contents. -/
def heapAlloc (h : ObjHeap) (d : Dict) : Nat × ObjHeap :=
  (h.next, ⟨fun i => if i = h.next then d else h.dicts i, h.next + 1⟩)

/-- The constructor loop of `Board.__init__`:
`for i in range(9): if squares.get(i) is None: squares[i] = Square()` —
it mutates the dict it is given. -/
def boardInitDict (d : Dict) : Dict :=
  fun k =>
    if k < 9 then
      match d k with
      | none => some ⟨none⟩
      | some s => some s
    else d k

/-- `Board(squares)` on an existing dict object: `self.squares = squares`
aliases the caller's dict (no copy, no allocation), and the constructor loop
mutates that very object in place. -/
def boardNew (h : ObjHeap) (dictId : Nat) : BoardObj × ObjHeap :=
  (⟨dictId⟩, heapWrite h dictId (boardInitDict (h.dicts dictId)))

/-- The `Board` value currently held by a board object (queries such as
`available_moves`, `complete`, `winner` and `heuristic` only read the dict,
so they go through this view). -/
def BoardObj.val (b : BoardObj) (h : ObjHeap) : Board := ⟨h.dicts b.squaresId⟩

/-- `Board.make_move` on an object: mutates the board's dict in place. -/
def BoardObj.make_moveH (b : BoardObj) (h : ObjHeap) (position : Nat) (p : Player) : ObjHeap :=
  heapWrite h b.squaresId (dictUpdate (h.dicts b.squaresId) position ⟨some p⟩)

/-- `copy.deepcopy(board)`: allocate a fresh dict object with a copy of the
board's squares and return a new board object referring to it. -/
def deepcopyH (b : BoardObj) (h : ObjHeap) : BoardObj × ObjHeap :=
  let a := heapAlloc h (h.dicts b.squaresId)
  (⟨a.1⟩, a.2)

/-- The `mm == MAX` loop of `Board.negamax`, on the heap: each iteration
deep-copies the board (a fresh allocation) and plays the move on the copy. -/
def heapMaxLoop (rec : ObjHeap → BoardObj → Int → Int → Int × ObjHeap)
    (b : BoardObj) (p : Player) :
    List Nat → ObjHeap → Int → Int → Int × ObjHeap
  | [], h, alpha, _ => (alpha, h)
  | move :: rest, h, alpha, beta =>
    let c := deepcopyH b h
    let h2 := c.1.make_moveH c.2 move p
    let r := rec h2 c.1 alpha beta
    let alpha' := max alpha r.1
    if beta ≤ alpha' then (beta, r.2)
    else heapMaxLoop rec b p rest r.2 alpha' beta

/-- The `mm == MIN` loop of `Board.negamax`, on the heap. -/
def heapMinLoop (rec : ObjHeap → BoardObj → Int → Int → Int × ObjHeap)
    (b : BoardObj) (p : Player) :
    List Nat → ObjHeap → Int → Int → Int × ObjHeap
  | [], h, _, beta => (beta, h)
  | move :: rest, h, alpha, beta =>
    let c := deepcopyH b h
    let h2 := c.1.make_moveH c.2 move p
    let r := rec h2 c.1 alpha beta
    let beta' := min beta r.1
    if beta' ≤ alpha then (alpha, r.2)
    else heapMinLoop rec b p rest r.2 alpha beta'

/-- `Board.negamax` on the heap, returning the score together with the heap
after the call (the copies it allocated; it writes to no pre-existing
object — `heapNegamaxF_frame` below). -/
def heapNegamaxF : Nat → ObjHeap → BoardObj → Player → Player → Int → Int → Int → Int × ObjHeap
  | 0, h, _, _, _, _, _, _ => (0, h)
  | fuel + 1, h, b, o_player, player, mm, alpha, beta =>
    if (b.val h).complete then (((b.val h).heuristic o_player).getD 0, h)
    else if mm = MAX then
      heapMaxLoop (fun h2 c a bt => heapNegamaxF fuel h2 c o_player (get_enemy player) MIN a bt)
        b player ((b.val h).available_moves) h alpha beta
    else if mm = MIN then
      heapMinLoop (fun h2 c a bt => heapNegamaxF fuel h2 c o_player (get_enemy player) MAX a bt)
        b player ((b.val h).available_moves) h alpha beta
    else (0, h)

/-- The selection loop of `Board.best_move`, on the heap: each candidate move
is played on a deep copy, never on `self`. -/
def heapBestLoop (self : BoardObj) (player : Player) :
    List Nat → ObjHeap → Int → Option Nat → Option Nat × ObjHeap
  | [], h, _, best => (best, h)
  | move :: rest, h, highest, best =>
    let c := deepcopyH self h
    let h2 := c.1.make_moveH c.2 move player
    let r := heapNegamaxF (((c.1.val h2).available_moves).length + 1) h2 c.1
      player (get_enemy player) MIN NEG_INF POS_INF
    if highest < r.1 then heapBestLoop self player rest r.2 r.1 (some move)
    else heapBestLoop self player rest r.2 highest best

/-- `Board.best_move` on the heap. -/
def BoardObj.best_moveH (self : BoardObj) (h : ObjHeap) (player : Player) :
    Option Nat × ObjHeap :=
  if 7 < ((self.val h).available_moves).length then
    ((if ((self.val h).available_moves).contains 4 then some 4 else some 0), h)
  else heapBestLoop self player ((self.val h).available_moves) h NEG_INF none

/-- Only identifiers at or above `h.next` (objects allocated during the call)
differ between `h` and `h'`, and allocation only moves forward. -/
def heapFrame (h h' : ObjHeap) : Prop :=
  h.next ≤ h'.next ∧ ∀ i, i < h.next → h'.dicts i = h.dicts i

/-!  ### Scenario of the shared default argument

`def __init__(self, squares={})` evaluates `{}` once, when the module is
loaded, producing a single dict object; every call `Board()` then aliases
that same object.  The scenario heap below starts empty, allocates the
default dict at module load, builds `b1 = Board()`, plays
`b1.make_move(0, 'X')`, and builds `b2 = Board()`. -/

/-- The heap before the module is loaded: no objects. -/
def importHeap : ObjHeap := ⟨fun _ => fun _ => none, 0⟩

/-- Module load: the default argument `{}` of `Board.__init__` is allocated
exactly once. -/
def defaultArgAlloc : Nat × ObjHeap := heapAlloc importHeap (fun _ => none)

/-- `b1 = Board()`: constructed on the shared default dict. -/
def scenarioB1 : BoardObj × ObjHeap := boardNew defaultArgAlloc.2 defaultArgAlloc.1

/-- `b1.make_move(0, 'X')`. -/
def scenarioH2 : ObjHeap := scenarioB1.1.make_moveH scenarioB1.2 0 Player.X

/-- `b2 = Board()`: constructed on the very same shared default dict. -/
def scenarioB2 : BoardObj × ObjHeap := boardNew scenarioH2 defaultArgAlloc.1

/-- `isCompleteSpec` — modelled from the spec's words, for comparison with the
source's `complete`: `winner().isSome() || availableMoves().isEmpty()`. -/
def isCompleteSpec (b : Board) : Bool :=
  b.winner.isSome || b.available_moves.isEmpty

/-- A one-object heap for witnesses: dict 0 holds nine empty squares. -/
def witnessHeap : ObjHeap :=
  ⟨fun i => if i = 0 then (fun k => if k < 9 then some ⟨none⟩ else none)
    else (fun _ => none), 1⟩

/-- A heap whose dict 5 is a caller-built mapping holding one move. -/
def callerHeap : ObjHeap :=
  ⟨fun i => if i = 5 then (fun k => if k = 0 then some ⟨some Player.X⟩ else none)
    else (fun _ => none), 6⟩

/-!  ### Basic lemmas about the board queries -/

/-- The dict iteration walks at most 32 keys, so at most 32 moves are
available. -/
theorem available_moves_length_le (b : Board) : (b.available_moves).length ≤ 32 := by
  unfold Board.available_moves
  simpa using List.length_filter_le _ (List.range 32)

/-- The heuristic (with the unbound-variable case read as 0) is at least
`-33`: the multiplier is at most 33 and the value at least `-1`. -/
theorem heuristic_getD_ge (b : Board) (o : Player) : -33 ≤ (b.heuristic o).getD 0 := by
  have hlen := available_moves_length_le b
  unfold Board.heuristic Board.heuristic_value
  split_ifs <;> simp [Option.getD] <;> omega

/-- A board that the source does not consider complete still has an available
move: were the board full, every combo available to `'X'` would be fully owned
by `'X'`, making `'X'` the winner and the board complete. -/
theorem available_ne_nil_of_not_complete (b : Board) (h : b.complete = false) :
    b.available_moves ≠ [] := by
  intro hnil
  unfold Board.complete at h
  split_ifs at h with hany
  rw [List.any_eq_true] at hany
  obtain ⟨combo, hcombo, hall⟩ := hany
  rw [List.all_eq_true] at hall
  have hov : b.owned_or_vacant Player.X = b.get_squares Player.X := by
    unfold Board.owned_or_vacant
    rw [hnil, List.nil_append]
  have hwin : b.winner = some Player.X := by
    unfold Board.winner
    rw [List.find?_cons_of_pos]
    rw [List.any_eq_true]
    refine ⟨combo, hcombo, ?_⟩
    rw [List.all_eq_true]
    intro pos hpos
    have := hall pos hpos
    rwa [hov] at this
  rw [hwin] at h
  simp at h

/-- `available_moves` lists positions in strictly ascending order (the dict
iteration order). -/
theorem available_moves_sorted (b : Board) :
    List.Pairwise (· < ·) b.available_moves := by
  unfold Board.available_moves
  exact (List.pairwise_lt_range 32).filter _

/-- Playing a move removes exactly that key from the available list. -/
theorem available_moves_make_move (b : Board) (m : Nat) (p : Player) :
    (b.make_move m p).available_moves =
      (b.available_moves).filter fun k => decide (k ≠ m) := by
  unfold Board.available_moves Board.make_move
  rw [List.filter_filter]
  apply List.filter_congr
  intro k _
  by_cases hk : k = m
  · subst hk
    simp [Square.empty]
  · simp [hk]

/-- Playing an available move strictly decreases the number of available
moves. -/
theorem available_moves_make_move_lt (b : Board) (m : Nat) (p : Player)
    (hm : m ∈ b.available_moves) :
    ((b.make_move m p).available_moves).length < (b.available_moves).length := by
  rw [available_moves_make_move]
  exact List.length_filter_lt_length_iff_exists.mpr ⟨m, hm, by simp⟩

/-!  ### The search never returns the `-inf` sentinel

`best_move` initialises `highest = -1e10000` and only keeps moves whose score
strictly exceeds it, so the selection loop assigns a move exactly when some
negamax score exceeds `-inf`.  The lemmas below show every negamax call made
with `alpha < beta` and an `alpha` below every heuristic value returns a score
strictly above `alpha`. -/

/-- The `MAX` loop never returns less than the `alpha` it starts from
(provided the window is open). -/
theorem maxLoop_ge_alpha (rec : Board → Int → Int → Int) (b : Board) (p : Player) :
    ∀ (moves : List Nat) (alpha beta : Int), alpha < beta →
      alpha ≤ maxLoop rec b p moves alpha beta := by
  intro moves
  induction moves with
  | nil =>
    intro alpha beta _
    simp [maxLoop]
  | cons m rest ih =>
    intro alpha beta hab
    simp only [maxLoop]
    by_cases hp : beta ≤ max alpha (rec ((deepcopy b).make_move m p) alpha beta)
    · rw [if_pos hp]
      exact le_of_lt hab
    · rw [if_neg hp]
      exact le_trans (le_max_left _ _) (ih _ _ (lt_of_not_le hp))

/-- If every recursive score in a `MIN` loop stays above the fixed `alpha`,
the loop's result stays above `alpha` as well (in particular it never prunes). -/
theorem minLoop_gt_alpha (rec : Board → Int → Int → Int) (b : Board) (p : Player)
    (alpha : Int)
    (hrec : ∀ c beta', alpha < beta' → alpha < rec c alpha beta') :
    ∀ (moves : List Nat) (beta : Int), alpha < beta →
      alpha < minLoop rec b p moves alpha beta := by
  intro moves
  induction moves with
  | nil =>
    intro beta hab
    simpa [minLoop] using hab
  | cons m rest ih =>
    intro beta hab
    simp only [minLoop]
    have hs : alpha < rec ((deepcopy b).make_move m p) alpha beta := hrec _ _ hab
    have hb' : alpha < min beta (rec ((deepcopy b).make_move m p) alpha beta) :=
      lt_min hab hs
    rw [if_neg (not_le_of_lt hb')]
    exact ih _ hb'

/-- Negamax with an open window and an `alpha` below every heuristic value
returns a score strictly above `alpha`, whatever the fuel. -/
theorem negamaxF_gt_alpha :
    ∀ (fuel : Nat) (b : Board) (o p : Player) (mm alpha beta : Int),
      alpha < beta → alpha < -33 →
      alpha < negamaxF fuel b o p mm alpha beta := by
  intro fuel
  induction fuel with
  | zero =>
    intro b o p mm alpha beta _ ha
    simp only [negamaxF]
    omega
  | succ n ih =>
    intro b o p mm alpha beta hab ha
    simp only [negamaxF]
    by_cases hc : b.complete = true
    · rw [if_pos hc]
      have := heuristic_getD_ge b o
      omega
    · rw [if_neg hc]
      by_cases hmm : mm = MAX
      · rw [if_pos hmm]
        obtain ⟨m, rest, hmv⟩ :=
          List.exists_cons_of_ne_nil
            (available_ne_nil_of_not_complete b (Bool.eq_false_iff.mpr hc))
        rw [hmv]
        simp only [maxLoop]
        have hs : alpha < negamaxF n ((deepcopy b).make_move m p) o (get_enemy p) MIN alpha beta :=
          ih _ _ _ _ _ _ hab ha
        have h1 : alpha < max alpha (negamaxF n ((deepcopy b).make_move m p) o (get_enemy p) MIN alpha beta) :=
          lt_of_lt_of_le hs (le_max_right _ _)
        by_cases hp : beta ≤ max alpha (negamaxF n ((deepcopy b).make_move m p) o (get_enemy p) MIN alpha beta)
        · rw [if_pos hp]
          exact hab
        · rw [if_neg hp]
          exact lt_of_lt_of_le h1 (maxLoop_ge_alpha _ _ _ rest _ _ (lt_of_not_le hp))
      · rw [if_neg hmm]
        by_cases hmm2 : mm = MIN
        · rw [if_pos hmm2]
          exact minLoop_gt_alpha _ _ _ alpha
            (fun c beta' h' => ih c o (get_enemy p) MAX alpha beta' h' ha)
            _ _ hab
        · rw [if_neg hmm2]
          omega

/-- Every score `best_move` computes strictly exceeds the `-inf` sentinel. -/
theorem topScore_gt_NEG_INF (b : Board) (s : Player) (m : Nat) :
    NEG_INF < topScore b s m := by
  unfold topScore negamax
  exact negamaxF_gt_alpha _ _ _ _ _ _ _
    (by norm_num [NEG_INF, POS_INF]) (by norm_num [NEG_INF])

/-!  ### The selection loop of `best_move` -/

/-- Once the local `best_move` variable has been assigned, it stays assigned. -/
theorem bestMoveLoop_isSome (self : Board) (player : Player) :
    ∀ (moves : List Nat) (highest : Int) (x : Nat),
      (bestMoveLoop self player moves highest (some x)).isSome = true := by
  intro moves
  induction moves with
  | nil =>
    intro highest x
    simp [bestMoveLoop]
  | cons m rest ih =>
    intro highest x
    simp only [bestMoveLoop]
    by_cases hcmp : highest < topScore self player m
    · rw [if_pos hcmp]
      exact ih _ _
    · rw [if_neg hcmp]
      exact ih _ _

/-- If no score strictly beats the running `highest`, the loop never updates
its accumulator. -/
theorem bestMoveLoop_no_update (self : Board) (player : Player) :
    ∀ (moves : List Nat) (highest : Int) (best : Option Nat),
      (∀ m ∈ moves, topScore self player m ≤ highest) →
      bestMoveLoop self player moves highest best = best := by
  intro moves
  induction moves with
  | nil =>
    intro highest best _
    rfl
  | cons m rest ih =>
    intro highest best hle
    simp only [bestMoveLoop]
    rw [if_neg (not_lt_of_le (hle m (List.mem_cons_self m rest)))]
    exact ih _ _ fun x hx => hle x (List.mem_cons_of_mem m hx)

/-- The selection loop keeps the first move attaining the maximal score: if
some score beats the running `highest`, the result is a move whose score beats
`highest`, is maximal, and which precedes (is at most) every other move with
the same score — for a strictly ascending move list. -/
theorem bestMoveLoop_first_argmax (self : Board) (player : Player) :
    ∀ (moves : List Nat), List.Pairwise (· < ·) moves →
      ∀ (highest : Int) (best : Option Nat),
        (∃ m ∈ moves, highest < topScore self player m) →
        ∃ m, bestMoveLoop self player moves highest best = some m ∧
          m ∈ moves ∧ highest < topScore self player m ∧
          (∀ x ∈ moves, topScore self player x ≤ topScore self player m) ∧
          (∀ x ∈ moves, topScore self player x = topScore self player m → m ≤ x) := by
  intro moves
  induction moves with
  | nil =>
    intro _ highest best hex
    simp at hex
  | cons a rest ih =>
    intro hsort highest best hex
    have ha_lt : ∀ x ∈ rest, a < x := fun x hx => (List.pairwise_cons.mp hsort).1 x hx
    have hrest : List.Pairwise (· < ·) rest := (List.pairwise_cons.mp hsort).2
    simp only [bestMoveLoop]
    by_cases hcmp : highest < topScore self player a
    · rw [if_pos hcmp]
      by_cases hex2 : ∃ x ∈ rest, topScore self player a < topScore self player x
      · obtain ⟨m, hres, hm, hgt, hbound, hties⟩ :=
          ih hrest (topScore self player a) (some a) hex2
        refine ⟨m, hres, List.mem_cons_of_mem a hm, lt_trans hcmp hgt, ?_, ?_⟩
        · intro x hx
          rcases List.mem_cons.mp hx with hxa | hxr
          · rw [hxa]
            exact le_of_lt hgt
          · exact hbound x hxr
        · intro x hx hxeq
          rcases List.mem_cons.mp hx with hxa | hxr
          · rw [hxa] at hxeq
            exact absurd hxeq (ne_of_lt hgt)
          · exact hties x hxr hxeq
      · push_neg at hex2
        rw [bestMoveLoop_no_update self player rest (topScore self player a) (some a) hex2]
        refine ⟨a, rfl, List.mem_cons_self a rest, hcmp, ?_, ?_⟩
        · intro x hx
          rcases List.mem_cons.mp hx with hxa | hxr
          · rw [hxa]
          · exact hex2 x hxr
        · intro x hx _
          rcases List.mem_cons.mp hx with hxa | hxr
          · rw [hxa]
          · exact le_of_lt (ha_lt x hxr)
    · rw [if_neg hcmp]
      have hex' : ∃ m ∈ rest, highest < topScore self player m := by
        obtain ⟨m, hm, hms⟩ := hex
        rcases List.mem_cons.mp hm with hma | hmr
        · rw [hma] at hms
          exact absurd hms hcmp
        · exact ⟨m, hmr, hms⟩
      obtain ⟨m, hres, hm, hgt, hbound, hties⟩ := ih hrest highest best hex'
      refine ⟨m, hres, List.mem_cons_of_mem a hm, hgt, ?_, ?_⟩
      · intro x hx
        rcases List.mem_cons.mp hx with hxa | hxr
        · rw [hxa]
          exact le_of_lt (lt_of_le_of_lt (le_of_not_lt hcmp) hgt)
        · exact hbound x hxr
      · intro x hx hxeq
        rcases List.mem_cons.mp hx with hxa | hxr
        · rw [hxa] at hxeq
          have : topScore self player a ≤ highest := le_of_not_lt hcmp
          omega
        · exact hties x hxr hxeq

/-!  ### Fuel independence of `negamaxF` -/

/-- `maxLoop` only depends on `rec` through its values at the boards obtained
by playing a listed move. -/
theorem maxLoop_congr (rec1 rec2 : Board → Int → Int → Int) (b : Board) (p : Player) :
    ∀ (moves : List Nat),
      (∀ m ∈ moves, ∀ a bt, rec1 ((deepcopy b).make_move m p) a bt =
        rec2 ((deepcopy b).make_move m p) a bt) →
      ∀ (alpha beta : Int),
        maxLoop rec1 b p moves alpha beta = maxLoop rec2 b p moves alpha beta := by
  intro moves
  induction moves with
  | nil =>
    intro _ alpha beta
    rfl
  | cons m rest ih =>
    intro hagree alpha beta
    simp only [maxLoop]
    rw [hagree m (List.mem_cons_self m rest) alpha beta]
    rw [ih fun x hx => hagree x (List.mem_cons_of_mem m hx)]

/-- `minLoop` only depends on `rec` through its values at the boards obtained
by playing a listed move. -/
theorem minLoop_congr (rec1 rec2 : Board → Int → Int → Int) (b : Board) (p : Player) :
    ∀ (moves : List Nat),
      (∀ m ∈ moves, ∀ a bt, rec1 ((deepcopy b).make_move m p) a bt =
        rec2 ((deepcopy b).make_move m p) a bt) →
      ∀ (alpha beta : Int),
        minLoop rec1 b p moves alpha beta = minLoop rec2 b p moves alpha beta := by
  intro moves
  induction moves with
  | nil =>
    intro _ alpha beta
    rfl
  | cons m rest ih =>
    intro hagree alpha beta
    simp only [minLoop]
    rw [hagree m (List.mem_cons_self m rest) alpha beta]
    rw [ih fun x hx => hagree x (List.mem_cons_of_mem m hx)]

/-- Any two fuel amounts exceeding the number of available moves give the same
negamax value: the zero-fuel branch is unreachable from the entry point, which
supplies `available_moves.length + 1` units. -/
theorem negamaxF_fuel_stable :
    ∀ (f1 : Nat) (b : Board) (o p : Player) (mm alpha beta : Int) (f2 : Nat),
      (b.available_moves).length < f1 → (b.available_moves).length < f2 →
      negamaxF f1 b o p mm alpha beta = negamaxF f2 b o p mm alpha beta := by
  intro f1
  induction f1 with
  | zero =>
    intro b o p mm alpha beta f2 h1 _
    omega
  | succ n ih =>
    intro b o p mm alpha beta f2 h1 h2
    cases f2 with
    | zero => omega
    | succ k =>
      have hchild : ∀ m ∈ b.available_moves, ∀ (o' p' : Player) (mm' a bt : Int),
          negamaxF n ((deepcopy b).make_move m p) o' p' mm' a bt =
          negamaxF k ((deepcopy b).make_move m p) o' p' mm' a bt := by
        intro m hm o' p' mm' a bt
        have hlt := available_moves_make_move_lt b m p hm
        exact ih _ _ _ _ _ _ _
          (by simpa [deepcopy] using (by omega : ((b.make_move m p).available_moves).length < n))
          (by simpa [deepcopy] using (by omega : ((b.make_move m p).available_moves).length < k))
      simp only [negamaxF]
      split_ifs with hc hmm hmm2
      · rfl
      · apply maxLoop_congr
        intro m hm a bt
        exact hchild m hm o (get_enemy p) MIN a bt
      · apply minLoop_congr
        intro m hm a bt
        exact hchild m hm o (get_enemy p) MAX a bt
      · rfl

/-!  ### Frame property of the heap-level search

The search only writes to dict objects it allocates itself (its deep copies);
every object that existed before the call — in particular the caller's board —
is untouched. -/

/-- `heapFrame` is reflexive. -/
theorem heapFrame_rfl (h : ObjHeap) : heapFrame h h :=
  ⟨le_refl _, fun _ _ => rfl⟩

/-- `heapFrame` is transitive. -/
theorem heapFrame_trans {h1 h2 h3 : ObjHeap}
    (a : heapFrame h1 h2) (b : heapFrame h2 h3) : heapFrame h1 h3 :=
  ⟨le_trans a.1 b.1, fun i hi => (b.2 i (lt_of_lt_of_le hi a.1)).trans (a.2 i hi)⟩

/-- Deep-copying a board and playing a move on the copy only touches the
freshly allocated dict. -/
theorem heapFrame_copy_move (b : BoardObj) (h : ObjHeap) (move : Nat) (p : Player) :
    heapFrame h ((deepcopyH b h).1.make_moveH (deepcopyH b h).2 move p) := by
  constructor
  · show h.next ≤ (heapWrite _ _ _).next
    simp [deepcopyH, heapAlloc, heapWrite]
  · intro i hi
    show (heapWrite _ _ _).dicts i = h.dicts i
    simp only [deepcopyH, heapAlloc, heapWrite, BoardObj.make_moveH]
    rw [if_neg (by omega : ¬ i = h.next), if_neg (by omega : ¬ i = h.next)]

/-- The heap-level `MAX` loop preserves every pre-existing object, provided the
recursive call does. -/
theorem heapMaxLoop_frame (rec : ObjHeap → BoardObj → Int → Int → Int × ObjHeap)
    (b : BoardObj) (p : Player)
    (hrec : ∀ h c a bt, heapFrame h (rec h c a bt).2) :
    ∀ (moves : List Nat) (h : ObjHeap) (alpha beta : Int),
      heapFrame h ((heapMaxLoop rec b p moves h alpha beta).2) := by
  intro moves
  induction moves with
  | nil =>
    intro h alpha beta
    exact heapFrame_rfl h
  | cons m rest ih =>
    intro h alpha beta
    simp only [heapMaxLoop]
    have hstep : heapFrame h ((deepcopyH b h).1.make_moveH (deepcopyH b h).2 m p) :=
      heapFrame_copy_move b h m p
    have hrec' := hrec ((deepcopyH b h).1.make_moveH (deepcopyH b h).2 m p) (deepcopyH b h).1 alpha beta
    have hto : heapFrame h (rec ((deepcopyH b h).1.make_moveH (deepcopyH b h).2 m p) (deepcopyH b h).1 alpha beta).2 :=
      heapFrame_trans hstep hrec'
    by_cases hp : beta ≤ max alpha (rec ((deepcopyH b h).1.make_moveH (deepcopyH b h).2 m p) (deepcopyH b h).1 alpha beta).1
    · rw [if_pos hp]
      exact hto
    · rw [if_neg hp]
      exact heapFrame_trans hto (ih _ _ _)

/-- The heap-level `MIN` loop preserves every pre-existing object, provided the
recursive call does. -/
theorem heapMinLoop_frame (rec : ObjHeap → BoardObj → Int → Int → Int × ObjHeap)
    (b : BoardObj) (p : Player)
    (hrec : ∀ h c a bt, heapFrame h (rec h c a bt).2) :
    ∀ (moves : List Nat) (h : ObjHeap) (alpha beta : Int),
      heapFrame h ((heapMinLoop rec b p moves h alpha beta).2) := by
  intro moves
  induction moves with
  | nil =>
    intro h alpha beta
    exact heapFrame_rfl h
  | cons m rest ih =>
    intro h alpha beta
    simp only [heapMinLoop]
    have hstep : heapFrame h ((deepcopyH b h).1.make_moveH (deepcopyH b h).2 m p) :=
      heapFrame_copy_move b h m p
    have hrec' := hrec ((deepcopyH b h).1.make_moveH (deepcopyH b h).2 m p) (deepcopyH b h).1 alpha beta
    have hto : heapFrame h (rec ((deepcopyH b h).1.make_moveH (deepcopyH b h).2 m p) (deepcopyH b h).1 alpha beta).2 :=
      heapFrame_trans hstep hrec'
    by_cases hp : min beta (rec ((deepcopyH b h).1.make_moveH (deepcopyH b h).2 m p) (deepcopyH b h).1 alpha beta).1 ≤ alpha
    · rw [if_pos hp]
      exact hto
    · rw [if_neg hp]
      exact heapFrame_trans hto (ih _ _ _)

/-- The heap-level negamax preserves every pre-existing object. -/
theorem heapNegamaxF_frame :
    ∀ (fuel : Nat) (h : ObjHeap) (b : BoardObj) (o p : Player) (mm alpha beta : Int),
      heapFrame h ((heapNegamaxF fuel h b o p mm alpha beta).2) := by
  intro fuel
  induction fuel with
  | zero =>
    intro h b o p mm alpha beta
    exact heapFrame_rfl h
  | succ n ih =>
    intro h b o p mm alpha beta
    simp only [heapNegamaxF]
    split_ifs with hc hmm hmm2
    · exact heapFrame_rfl h
    · exact heapMaxLoop_frame _ _ _ (fun h' c a bt => ih h' c o (get_enemy p) MIN a bt) _ _ _ _
    · exact heapMinLoop_frame _ _ _ (fun h' c a bt => ih h' c o (get_enemy p) MAX a bt) _ _ _ _
    · exact heapFrame_rfl h

/-- The heap-level selection loop preserves every pre-existing object. -/
theorem heapBestLoop_frame (self : BoardObj) (player : Player) :
    ∀ (moves : List Nat) (h : ObjHeap) (highest : Int) (best : Option Nat),
      heapFrame h ((heapBestLoop self player moves h highest best).2) := by
  intro moves
  induction moves with
  | nil =>
    intro h highest best
    exact heapFrame_rfl h
  | cons m rest ih =>
    intro h highest best
    simp only [heapBestLoop]
    have hstep : heapFrame h ((deepcopyH self h).1.make_moveH (deepcopyH self h).2 m player) :=
      heapFrame_copy_move self h m player
    have hneg := heapNegamaxF_frame
      ((((deepcopyH self h).1.val ((deepcopyH self h).1.make_moveH (deepcopyH self h).2 m player)).available_moves).length + 1)
      ((deepcopyH self h).1.make_moveH (deepcopyH self h).2 m player) (deepcopyH self h).1
      player (get_enemy player) MIN NEG_INF POS_INF
    have hto : heapFrame h (heapNegamaxF
        ((((deepcopyH self h).1.val ((deepcopyH self h).1.make_moveH (deepcopyH self h).2 m player)).available_moves).length + 1)
        ((deepcopyH self h).1.make_moveH (deepcopyH self h).2 m player) (deepcopyH self h).1
        player (get_enemy player) MIN NEG_INF POS_INF).2 :=
      heapFrame_trans hstep hneg
    split_ifs
    · exact heapFrame_trans hto (ih _ _ _)
    · exact heapFrame_trans hto (ih _ _ _)

/-- `best_move` on the heap preserves every pre-existing object. -/
theorem best_moveH_frame (self : BoardObj) (h : ObjHeap) (player : Player) :
    heapFrame h ((self.best_moveH h player).2) := by
  unfold BoardObj.best_moveH
  split_ifs
  · exact heapFrame_rfl h
  · exact heapFrame_rfl h
  · exact heapBestLoop_frame self player _ h _ _

/-!  ### The heuristic on complete boards -/

/-- The enemy of a side is never that side. -/
theorem get_enemy_ne (s : Player) : get_enemy s ≠ s := by
  cases s <;> simp [get_enemy]

/-- On a complete board the heuristic is defined and equals
`value * (len(available_moves) + 1)` with `value = 1` for the winner, `0` for
a tie and `-1` for the loser. -/
theorem heuristic_complete_eq (b : Board) (s : Player) (h : b.complete = true) :
    b.heuristic s = some ((if b.winner = some s then 1
      else if b.winner = none then 0 else -1) *
      ((b.available_moves).length + 1 : Int)) := by
  by_cases h1 : b.winner = some s
  · simp [Board.heuristic, Board.heuristic_value, h1]
  · by_cases h0 : b.winner = none
    · have htied : b.tied = true := by
        unfold Board.tied
        rw [h, h0]
        rfl
      simp [Board.heuristic, Board.heuristic_value, h0, htied]
    · have henemy : b.winner = some (get_enemy s) := by
        rcases hw : b.winner with _ | q
        · exact absurd hw h0
        · have hq : q ≠ s := fun he => h1 (by rw [hw, he])
          have hqe : q = get_enemy s := by
            cases q <;> cases s <;> simp_all [get_enemy]
          rw [hqe]
      have htied : b.tied = false := by
        unfold Board.tied
        rw [henemy]
        simp
      simp [Board.heuristic, Board.heuristic_value, henemy, htied, h1, get_enemy_ne s]

/-!  ### The claims -/

/-- C1: the claim states that `complete` is true iff there is a winner or no
move is available.  The code violates it: on `blockedBoard` (four `'O'` moves
blocking every line available to `'X'`) `complete` returns `True` although
there is no winner and five squares are still empty — the spec itself flags
the source's line-feasibility check as buggy, so this is a code bug.  This
theorem evaluates the code at the failing input and compares it with the
spec's definition `winner().isSome() || availableMoves().isEmpty()`. -/
theorem complete_code_bug :
    blockedBoard.winner = none ∧
    blockedBoard.available_moves ≠ [] ∧
    blockedBoard.complete = true ∧
    isCompleteSpec blockedBoard = false := by
  refine ⟨by decide, by decide, by decide, by decide⟩

/-- C2 counterexample: `make_move` on the occupied square 0 does not fail and
does not leave the board unchanged — it overwrites the `'X'` with an `'O'`;
and `make_move` at the out-of-range position 9 inserts a new key instead of
failing. -/
theorem make_move_claim_counterexample :
    occupiedBoard.squares 0 = some ⟨some Player.X⟩ ∧
    (occupiedBoard.make_move 0 Player.O).squares 0 = some ⟨some Player.O⟩ ∧
    occupiedBoard.squares 9 = none ∧
    (occupiedBoard.make_move 9 Player.O).squares 9 = some ⟨some Player.O⟩ := by
  refine ⟨by decide, by decide, by decide, by decide⟩

/-- C2 (amended): `make_move(position, side)` unconditionally sets the cell at
`position` to a square occupied by `side` — overwriting any occupant and
inserting out-of-range keys, with no `IllegalMove` failure — and leaves every
other key unchanged. -/
theorem make_move_unconditional (b : Board) (position : Nat) (p : Player) :
    (b.make_move position p).squares position = some ⟨some p⟩ ∧
    ∀ k, k ≠ position → (b.make_move position p).squares k = b.squares k := by
  constructor
  · simp [Board.make_move]
  · intro k hk
    simp [Board.make_move, hk]

/-- C2 witness: the amended statement at position 3 on `occupiedBoard`. -/
theorem make_move_unconditional_witness :
    (occupiedBoard.make_move 3 Player.O).squares 3 = some ⟨some Player.O⟩ ∧
    (occupiedBoard.make_move 3 Player.O).squares 2 = occupiedBoard.squares 2 :=
  ⟨(make_move_unconditional occupiedBoard 3 Player.O).1,
   (make_move_unconditional occupiedBoard 3 Player.O).2 2 (by decide)⟩

/-- C3 counterexample: on `wonWithMovesBoard` — complete (`'X'` has won) but
with four squares still empty — `best_move('O')` returns position 3 instead of
failing with a `NoMovesAvailable` condition. -/
theorem best_move_complete_counterexample :
    wonWithMovesBoard.complete = true ∧
    wonWithMovesBoard.available_moves ≠ [] ∧
    wonWithMovesBoard.best_move Player.O = some 3 := by
  refine ⟨by decide, by decide, by decide⟩

/-- C3 (amended): `best_move` fails exactly on boards with no available move
(the loop never assigns its result variable, an `UnboundLocalError` rather
than a `NoMovesAvailable` condition, modelled by `none`); on every board with
an available move — complete or not — it returns a position. -/
theorem best_move_none_iff_no_moves (b : Board) (s : Player) :
    b.best_move s = none ↔ b.available_moves = [] := by
  constructor
  · intro h
    by_contra hne
    obtain ⟨m0, rest, hmv⟩ := List.exists_cons_of_ne_nil hne
    unfold Board.best_move at h
    by_cases h7 : 7 < (b.available_moves).length
    · rw [if_pos h7] at h
      split_ifs at h
    · rw [if_neg h7, hmv] at h
      simp only [bestMoveLoop] at h
      rw [if_pos (topScore_gt_NEG_INF b s m0)] at h
      have := bestMoveLoop_isSome b s rest (topScore b s m0) m0
      rw [h] at this
      simp at this
  · intro h
    unfold Board.best_move
    rw [h]
    simp [bestMoveLoop]

/-- C3 witness: on the full drawn board, `best_move` indeed fails (returns
`none`) and the available list is empty. -/
theorem best_move_none_iff_no_moves_witness :
    fullBoard.best_move Player.X = none ∧ fullBoard.available_moves = [] :=
  ⟨(best_move_none_iff_no_moves fullBoard Player.X).mpr (by decide), by decide⟩

/-- C4: the claim states every `Board()` starts with nine empty cells and
fresh, unshared state.  The code violates it through the mutable shared
default argument: in the scenario `b1 = Board(); b1.make_move(0, 'X');
b2 = Board()`, the first board does start with nine empty cells, but the
second aliases the very same default dict and sees the `'X'` at cell 0. -/
theorem shared_default_code_bug :
    ((List.range 9).all fun k =>
      decide (scenarioB1.2.dicts scenarioB1.1.squaresId k = some ⟨none⟩)) = true ∧
    scenarioB2.1.squaresId = scenarioB1.1.squaresId ∧
    scenarioB2.2.dicts scenarioB2.1.squaresId 0 = some ⟨some Player.X⟩ := by
  refine ⟨by decide, by decide, by decide⟩

/-- C5: the end-to-end doc-test — on the board
`{0:X, 1:O, 2:X, 4:O, 6:O, 7:X, 8:X}` the game is not complete,
`best_move('O')` returns 5, and after playing it the game is tied. -/
theorem doctest_end_to_end :
    doctestBoard.complete = false ∧
    doctestBoard.best_move Player.O = some 5 ∧
    (doctestBoard.make_move 5 Player.O).tied = true := by
  refine ⟨by decide, by decide, by decide⟩

/-- C6: on every complete board the heuristic for side `s` equals
`value * (|availableMoves| + 1)` with `value = +1` if `s` won, `0` if drawn,
`-1` if the enemy won; consequently a win with more cells available scores
strictly higher, and a loss with fewer cells available scores strictly higher
(less negative). -/
theorem heuristic_terminal_spec :
    (∀ (b : Board) (s : Player), b.complete = true →
      b.heuristic s = some ((if b.winner = some s then 1
        else if b.winner = none then 0 else -1) *
        ((b.available_moves).length + 1 : Int))) ∧
    (∀ (b1 b2 : Board) (s : Player), b1.complete = true → b2.complete = true →
      b1.winner = some s → b2.winner = some s →
      (b2.available_moves).length < (b1.available_moves).length →
      ∃ v1 v2, b1.heuristic s = some v1 ∧ b2.heuristic s = some v2 ∧ v2 < v1) ∧
    (∀ (b1 b2 : Board) (s : Player), b1.complete = true → b2.complete = true →
      b1.winner = some (get_enemy s) → b2.winner = some (get_enemy s) →
      (b1.available_moves).length < (b2.available_moves).length →
      ∃ v1 v2, b1.heuristic s = some v1 ∧ b2.heuristic s = some v2 ∧ v2 < v1) := by
  refine ⟨fun b s h => heuristic_complete_eq b s h, ?_, ?_⟩
  · intro b1 b2 s h1 h2 hw1 hw2 hlen
    have e1 := heuristic_complete_eq b1 s h1
    have e2 := heuristic_complete_eq b2 s h2
    rw [hw1] at e1
    rw [hw2] at e2
    simp only [if_pos rfl, one_mul] at e1 e2
    exact ⟨_, _, e1, e2, by push_cast; omega⟩
  · intro b1 b2 s h1 h2 hw1 hw2 hlen
    have e1 := heuristic_complete_eq b1 s h1
    have e2 := heuristic_complete_eq b2 s h2
    rw [hw1] at e1
    rw [hw2] at e2
    have hne : ¬ (some (get_enemy s) = some s) := by
      simp [get_enemy_ne s]
    have hnn : ¬ ((some (get_enemy s) : Option Player) = none) := by simp
    rw [if_neg hne, if_neg hnn] at e1 e2
    exact ⟨_, _, e1, e2, by simp only [neg_mul, one_mul, neg_lt_neg_iff]; omega⟩

/-- C6 witness: an `'X'` win with six empty squares scores 7; it scores
strictly above a win with three empty squares; and a loss with four empty
squares scores strictly above a loss with six empty squares. -/
theorem heuristic_terminal_spec_witness :
    earlyWinBoard.heuristic Player.X = some 7 ∧
    (∃ v1 v2, earlyWinBoard.heuristic Player.X = some v1 ∧
      lateWinBoard.heuristic Player.X = some v2 ∧ v2 < v1) ∧
    (∃ v1 v2, lateLossBoard.heuristic Player.X = some v1 ∧
      earlyLossBoard.heuristic Player.X = some v2 ∧ v2 < v1) := by
  refine ⟨?_, ?_, ?_⟩
  · have := heuristic_terminal_spec.1 earlyWinBoard Player.X (by decide)
    rw [this]
    decide
  · exact heuristic_terminal_spec.2.1 earlyWinBoard lateWinBoard Player.X
      (by decide) (by decide) (by decide) (by decide) (by decide)
  · exact heuristic_terminal_spec.2.2 lateLossBoard earlyLossBoard Player.X
      (by decide) (by decide) (by decide) (by decide) (by decide)

/-- C7: on every board that is not complete and has at most 7 available moves,
`best_move(s)` returns a move of the (ascending) available list attaining the
maximal negamax score, and preceding every other move attaining it — the
first-found maximum is kept, never overwritten on an equal score. -/
theorem best_move_first_argmax (b : Board) (s : Player)
    (h1 : b.complete = false) (h2 : (b.available_moves).length ≤ 7) :
    ∃ m, b.best_move s = some m ∧ m ∈ b.available_moves ∧
      List.Pairwise (· < ·) b.available_moves ∧
      (∀ x ∈ b.available_moves, topScore b s x ≤ topScore b s m) ∧
      (∀ x ∈ b.available_moves, topScore b s x = topScore b s m → m ≤ x) := by
  have hsort := available_moves_sorted b
  have hne := available_ne_nil_of_not_complete b h1
  obtain ⟨m0, rest, hmv⟩ := List.exists_cons_of_ne_nil hne
  have hex : ∃ m ∈ b.available_moves, NEG_INF < topScore b s m := by
    refine ⟨m0, ?_, topScore_gt_NEG_INF b s m0⟩
    rw [hmv]
    exact List.mem_cons_self m0 rest
  obtain ⟨m, hres, hm, _, hbound, hties⟩ :=
    bestMoveLoop_first_argmax b s _ hsort NEG_INF none hex
  refine ⟨m, ?_, hm, hsort, hbound, hties⟩
  unfold Board.best_move
  rw [if_neg (by omega : ¬ 7 < (b.available_moves).length)]
  exact hres

/-- C7 witness: the argmax characterisation instantiated at the doc-test
board for `'O'`. -/
theorem best_move_first_argmax_witness :
    doctestBoard.complete = false ∧
    (doctestBoard.available_moves).length ≤ 7 ∧
    ∃ m, doctestBoard.best_move Player.O = some m ∧
      m ∈ doctestBoard.available_moves ∧
      List.Pairwise (· < ·) doctestBoard.available_moves ∧
      (∀ x ∈ doctestBoard.available_moves,
        topScore doctestBoard Player.O x ≤ topScore doctestBoard Player.O m) ∧
      (∀ x ∈ doctestBoard.available_moves,
        topScore doctestBoard Player.O x = topScore doctestBoard Player.O m → m ≤ x) :=
  ⟨by decide, by decide, best_move_first_argmax doctestBoard Player.O (by decide) (by decide)⟩

/-- C8: with more than 7 squares available (the game's first or second move),
`best_move` returns the centre 4 when available and position 0 otherwise; in
particular it returns 4 on the empty board, and returns the corner 0 after a
single opposing move in the centre. -/
theorem best_move_opening_shortcut :
    (∀ (b : Board) (s : Player), 7 < (b.available_moves).length →
      b.best_move s = if (b.available_moves).contains 4 then some 4 else some 0) ∧
    (∀ s : Player, emptyBoard.best_move s = some 4) ∧
    centerOBoard.best_move Player.X = some 0 ∧
    (0 = 0 ∨ 0 = 2 ∨ 0 = 6 ∨ 0 = 8) := by
  refine ⟨?_, ?_, by decide, by decide⟩
  · intro b s h
    unfold Board.best_move
    rw [if_pos h]
  · intro s
    cases s <;> decide

/-- C8 witness: the shortcut instantiated on the board with a single `'O'`
in the centre (8 available squares, centre taken). -/
theorem best_move_opening_shortcut_witness :
    7 < (centerOBoard.available_moves).length ∧
    centerOBoard.best_move Player.X = some 0 := by
  constructor
  · decide
  · have := best_move_opening_shortcut.1 centerOBoard Player.X (by decide)
    rw [this]
    decide

/-- C9: `best_move` never mutates the caller's board: every cell of the
board's dict holds the same value after the call as before it — the search
plays moves only on the deep copies it allocates. -/
theorem best_move_frame (h : ObjHeap) (b : BoardObj) (player : Player)
    (hvalid : b.squaresId < h.next) (k : Nat) :
    ((b.best_moveH h player).2).dicts b.squaresId k = h.dicts b.squaresId k := by
  have hf := best_moveH_frame b h player
  exact congrFun (hf.2 b.squaresId hvalid) k

/-- C9 witness: the frame property at the empty board held by `witnessHeap`. -/
theorem best_move_frame_witness :
    (((BoardObj.mk 0).best_moveH witnessHeap Player.X).2).dicts 0 4 =
      witnessHeap.dicts 0 4 :=
  best_move_frame witnessHeap ⟨0⟩ Player.X (by decide) 4

/-- C10: `Board(squares)` does not copy the caller's mapping: the board object
keeps the very identifier of the caller's dict (no allocation happens), the
constructor mutates that dict in place by inserting an empty square at every
absent index below 9, and a subsequent `make_move` is observable through the
caller's original mapping. -/
theorem board_constructor_aliases (h : ObjHeap) (dictId pos k : Nat) (p : Player)
    (hk : k < 9) (habsent : h.dicts dictId k = none) :
    (boardNew h dictId).1.squaresId = dictId ∧
    ((boardNew h dictId).2).next = h.next ∧
    ((boardNew h dictId).2).dicts dictId k = some ⟨none⟩ ∧
    ((boardNew h dictId).1.make_moveH (boardNew h dictId).2 pos p).dicts dictId pos
      = some ⟨some p⟩ := by
  refine ⟨rfl, rfl, ?_, ?_⟩
  · simp [boardNew, heapWrite, boardInitDict, hk, habsent]
  · simp [boardNew, BoardObj.make_moveH, heapWrite, dictUpdate]

/-- C10 witness: constructing a board on the caller's dict 5 of `callerHeap`
aliases it, allocates nothing, fills the absent key 1, and a move at 3 is
visible through dict 5. -/
theorem board_constructor_aliases_witness :
    (boardNew callerHeap 5).1.squaresId = 5 ∧
    ((boardNew callerHeap 5).2).next = callerHeap.next ∧
    ((boardNew callerHeap 5).2).dicts 5 1 = some ⟨none⟩ ∧
    ((boardNew callerHeap 5).1.make_moveH (boardNew callerHeap 5).2 3 Player.O).dicts 5 3
      = some ⟨some Player.O⟩ :=
  board_constructor_aliases callerHeap 5 3 1 Player.O (by decide) (by decide)

/-!  ### Agreement of the heap-level and value-level models

The heap-level search computes the same scores and the same chosen move as the
pure value-level translation: the deep copies are faithful value copies. -/

/-- The value of the fresh copy after playing a move on it is exactly
`make_move` on the value of the original board. -/
theorem val_after_copy_move (b : BoardObj) (h : ObjHeap) (m : Nat) (p : Player) :
    (deepcopyH b h).1.val ((deepcopyH b h).1.make_moveH (deepcopyH b h).2 m p) =
      (b.val h).make_move m p := by
  show Board.mk _ = Board.mk _
  congr 1
  funext k
  simp [deepcopyH, heapAlloc, BoardObj.make_moveH, heapWrite, dictUpdate,
    BoardObj.val, Board.make_move]

/-- The fresh copy is a valid reference in the heap after the move. -/
theorem copy_valid (b : BoardObj) (h : ObjHeap) (m : Nat) (p : Player) :
    (deepcopyH b h).1.squaresId <
      ((deepcopyH b h).1.make_moveH (deepcopyH b h).2 m p).next := by
  simp [deepcopyH, heapAlloc, BoardObj.make_moveH, heapWrite]

/-- A pre-existing board keeps its value across a heap extension. -/
theorem val_preserved {h h' : ObjHeap} (b : BoardObj)
    (hf : heapFrame h h') (hv : b.squaresId < h.next) : b.val h' = b.val h := by
  unfold BoardObj.val
  rw [hf.2 _ hv]

/-- Validity of a reference is preserved by a heap extension. -/
theorem valid_preserved {h h' : ObjHeap} (b : BoardObj)
    (hf : heapFrame h h') (hv : b.squaresId < h.next) : b.squaresId < h'.next :=
  lt_of_lt_of_le hv hf.1

/-- The heap-level `MAX` loop computes the value-level `maxLoop`. -/
theorem heapMaxLoop_agree (rec : ObjHeap → BoardObj → Int → Int → Int × ObjHeap)
    (rec' : Board → Int → Int → Int) (b : BoardObj) (p : Player)
    (hframe : ∀ h c a bt, heapFrame h (rec h c a bt).2)
    (hrec : ∀ h c a bt, c.squaresId < h.next → (rec h c a bt).1 = rec' (c.val h) a bt) :
    ∀ (moves : List Nat) (h : ObjHeap) (alpha beta : Int), b.squaresId < h.next →
      (heapMaxLoop rec b p moves h alpha beta).1 =
        maxLoop rec' (b.val h) p moves alpha beta := by
  intro moves
  induction moves with
  | nil =>
    intro h alpha beta _
    rfl
  | cons m rest ih =>
    intro h alpha beta hv
    simp only [heapMaxLoop, maxLoop]
    have hs : (rec ((deepcopyH b h).1.make_moveH (deepcopyH b h).2 m p) (deepcopyH b h).1 alpha beta).1
        = rec' ((deepcopy (b.val h)).make_move m p) alpha beta := by
      rw [hrec _ _ _ _ (copy_valid b h m p), val_after_copy_move]
      rfl
    rw [hs]
    by_cases hp : beta ≤ max alpha (rec' ((deepcopy (b.val h)).make_move m p) alpha beta)
    · rw [if_pos hp, if_pos hp]
    · rw [if_neg hp, if_neg hp]
      have hchain : heapFrame h (rec ((deepcopyH b h).1.make_moveH (deepcopyH b h).2 m p) (deepcopyH b h).1 alpha beta).2 :=
        heapFrame_trans (heapFrame_copy_move b h m p) (hframe _ _ _ _)
      rw [ih _ _ _ (valid_preserved b hchain hv), val_preserved b hchain hv]

/-- The heap-level `MIN` loop computes the value-level `minLoop`. -/
theorem heapMinLoop_agree (rec : ObjHeap → BoardObj → Int → Int → Int × ObjHeap)
    (rec' : Board → Int → Int → Int) (b : BoardObj) (p : Player)
    (hframe : ∀ h c a bt, heapFrame h (rec h c a bt).2)
    (hrec : ∀ h c a bt, c.squaresId < h.next → (rec h c a bt).1 = rec' (c.val h) a bt) :
    ∀ (moves : List Nat) (h : ObjHeap) (alpha beta : Int), b.squaresId < h.next →
      (heapMinLoop rec b p moves h alpha beta).1 =
        minLoop rec' (b.val h) p moves alpha beta := by
  intro moves
  induction moves with
  | nil =>
    intro h alpha beta _
    rfl
  | cons m rest ih =>
    intro h alpha beta hv
    simp only [heapMinLoop, minLoop]
    have hs : (rec ((deepcopyH b h).1.make_moveH (deepcopyH b h).2 m p) (deepcopyH b h).1 alpha beta).1
        = rec' ((deepcopy (b.val h)).make_move m p) alpha beta := by
      rw [hrec _ _ _ _ (copy_valid b h m p), val_after_copy_move]
      rfl
    rw [hs]
    by_cases hp : min beta (rec' ((deepcopy (b.val h)).make_move m p) alpha beta) ≤ alpha
    · rw [if_pos hp, if_pos hp]
    · rw [if_neg hp, if_neg hp]
      have hchain : heapFrame h (rec ((deepcopyH b h).1.make_moveH (deepcopyH b h).2 m p) (deepcopyH b h).1 alpha beta).2 :=
        heapFrame_trans (heapFrame_copy_move b h m p) (hframe _ _ _ _)
      rw [ih _ _ _ (valid_preserved b hchain hv), val_preserved b hchain hv]

/-- The heap-level negamax computes the value-level negamax. -/
theorem heapNegamaxF_agree :
    ∀ (fuel : Nat) (h : ObjHeap) (b : BoardObj) (o p : Player) (mm alpha beta : Int),
      b.squaresId < h.next →
      (heapNegamaxF fuel h b o p mm alpha beta).1 =
        negamaxF fuel (b.val h) o p mm alpha beta := by
  intro fuel
  induction fuel with
  | zero =>
    intro h b o p mm alpha beta _
    rfl
  | succ n ih =>
    intro h b o p mm alpha beta hv
    simp only [heapNegamaxF, negamaxF]
    split_ifs with hc hmm hmm2
    · rfl
    · exact heapMaxLoop_agree _ _ b p
        (fun h' c a bt => heapNegamaxF_frame n h' c o (get_enemy p) MIN a bt)
        (fun h' c a bt hv' => ih h' c o (get_enemy p) MIN a bt hv')
        _ h alpha beta hv
    · exact heapMinLoop_agree _ _ b p
        (fun h' c a bt => heapNegamaxF_frame n h' c o (get_enemy p) MAX a bt)
        (fun h' c a bt hv' => ih h' c o (get_enemy p) MAX a bt hv')
        _ h alpha beta hv
    · rfl

/-- The heap-level selection loop computes the value-level selection loop. -/
theorem heapBestLoop_agree (self : BoardObj) (player : Player) :
    ∀ (moves : List Nat) (h : ObjHeap) (highest : Int) (best : Option Nat),
      self.squaresId < h.next →
      (heapBestLoop self player moves h highest best).1 =
        bestMoveLoop (self.val h) player moves highest best := by
  intro moves
  induction moves with
  | nil =>
    intro h highest best _
    rfl
  | cons m rest ih =>
    intro h highest best hv
    simp only [heapBestLoop, bestMoveLoop]
    have hs : (heapNegamaxF
        ((((deepcopyH self h).1.val ((deepcopyH self h).1.make_moveH (deepcopyH self h).2 m player)).available_moves).length + 1)
        ((deepcopyH self h).1.make_moveH (deepcopyH self h).2 m player) (deepcopyH self h).1
        player (get_enemy player) MIN NEG_INF POS_INF).1
        = topScore (self.val h) player m := by
      rw [heapNegamaxF_agree _ _ _ _ _ _ _ _ (copy_valid self h m player)]
      rw [val_after_copy_move]
      rfl
    rw [hs]
    have hchain : heapFrame h (heapNegamaxF
        ((((deepcopyH self h).1.val ((deepcopyH self h).1.make_moveH (deepcopyH self h).2 m player)).available_moves).length + 1)
        ((deepcopyH self h).1.make_moveH (deepcopyH self h).2 m player) (deepcopyH self h).1
        player (get_enemy player) MIN NEG_INF POS_INF).2 :=
      heapFrame_trans (heapFrame_copy_move self h m player) (heapNegamaxF_frame _ _ _ _ _ _ _ _)
    by_cases hp : highest < topScore (self.val h) player m
    · rw [if_pos hp, if_pos hp]
      rw [ih _ _ _ (valid_preserved self hchain hv), val_preserved self hchain hv]
    · rw [if_neg hp, if_neg hp]
      rw [ih _ _ _ (valid_preserved self hchain hv), val_preserved self hchain hv]

/-- The heap-level `best_move` returns the same move as the value-level
`best_move` on the board's current value. -/
theorem best_moveH_agree (self : BoardObj) (h : ObjHeap) (player : Player)
    (hv : self.squaresId < h.next) :
    (self.best_moveH h player).1 = (self.val h).best_move player := by
  unfold BoardObj.best_moveH Board.best_move
  split_ifs
  · rfl
  · rfl
  · exact heapBestLoop_agree self player _ h _ _ hv
